import Mathlib

/-!
Verification of the LinScan sparse inner-product index (`src/index.rs`).

Shallow embedding conventions:
the numeric weights and scores (`f32` in the source) are modelled as
exact rationals `ℚ`; the algorithmic structure — which postings are
accumulated where, how the score buffer is partitioned, and what the
bounded-heap selection phase returns — is embedded faithfully, while
floating-point rounding is abstracted away.  `HashMap`s (documents,
queries, the inverted index) are modelled as association lists;
quantifying over list order captures the arbitrary iteration order of a
`HashMap`.  Rust durations are natural numbers (nanoseconds), and the
wall-clock measurements of the budgeted path are an oracle parameter.
-/

namespace Linscan

/-- A single posting of the inverted list (`Posting { docid, value }` in
`src/index.rs`).  `docid` is `u32` in the source, modelled as `Nat`;
`value` is `f32`, modelled as `ℚ`. -/
structure Posting where
  docid : Nat
  value : ℚ
deriving DecidableEq

/-- The LinScan index (`struct Index`): the mapping coordinate → posting
store (`HashMap<u32, Vec<Posting>>`, modelled as an association list),
the document counter `num_docs`, and the serial/parallel flag. -/
structure Index where
  inverted_index : List (Nat × List Posting)
  num_docs : Nat
  parallel : Bool
deriving DecidableEq

/-- Lookup of a coordinate's posting store
(`self.inverted_index.get(&coordinate)`). -/
def lookupStore (m : List (Nat × List Posting)) (c : Nat) : Option (List Posting) :=
  (m.find? (fun e => e.1 == c)).map (fun e => e.2)

/-- The posting store of coordinate `c`, defaulting to the empty list
when the coordinate is absent. -/
def storeAt (m : List (Nat × List Posting)) (c : Nat) : List Posting :=
  (lookupStore m c).getD []

/-- Rust `self.inverted_index.entry(coordinate).or_default().push(p)`:
append posting `p` to the store of coordinate `c`, creating the store
when the coordinate is absent. -/
def pushPosting (m : List (Nat × List Posting)) (c : Nat) (p : Posting) :
    List (Nat × List Posting) :=
  match m with
  | [] => [(c, [p])]
  | e :: rest => if e.1 == c then (e.1, e.2 ++ [p]) :: rest else e :: pushPosting rest c p

/-- Lookup in a sparse vector (the association-list model of a
`HashMap<u32, f32>` document or query). -/
def alookup (c : Nat) (l : List (Nat × ℚ)) : Option ℚ :=
  (l.find? (fun e => e.1 == c)).map (fun e => e.2)

/-- Rust `Index::new(parallel)`. -/
def Index.new (parallel : Bool) : Index :=
  { inverted_index := [], num_docs := 0, parallel := parallel }

/-- Rust `Index::insert`: for every `(coordinate, value)` pair of the
document, push `Posting { docid := num_docs, value }` onto that
coordinate's store, then increment `num_docs`. -/
def Index.insert (idx : Index) (document : List (Nat × ℚ)) : Index :=
  { idx with
    inverted_index :=
      document.foldl (fun m cv => pushPosting m cv.1 ⟨idx.num_docs, cv.2⟩) idx.inverted_index,
    num_docs := idx.num_docs + 1 }

/-- The sorting relation of `finalize` (`sort_by_key(|p| p.docid)`). -/
def postingLE (p q : Posting) : Prop := p.docid ≤ q.docid

instance : DecidableRel postingLE := fun p q => inferInstanceAs (Decidable (p.docid ≤ q.docid))

instance : IsTotal Posting postingLE := ⟨fun _ _ => Nat.le_total _ _⟩

instance : IsTrans Posting postingLE := ⟨fun _ _ _ h h' => Nat.le_trans h h'⟩

/-- Rust `Index::finalize`: sort every posting store ascending by docid
(`postings.sort_by_key(|posting| posting.docid)`). -/
def Index.finalize (idx : Index) : Index :=
  { idx with
    inverted_index := idx.inverted_index.map (fun e => (e.1, e.2.insertionSort postingLE)) }

/-- Serial inner loop of `compute_dot_product`:
`scores[posting.docid] += query_value * posting.value` for each posting
of the coordinate's store.  (`List.set` is a no-op out of bounds, where
Rust would panic; claim C9 shows the write is in bounds on every
reachable index.) -/
def accumPostings (query_value : ℚ) (postings : List Posting) (scores : List ℚ) : List ℚ :=
  postings.foldl (fun sc p => sc.set p.docid (sc.getD p.docid 0 + query_value * p.value)) scores

/-- Lower-bound index: the value of
`postings.binary_search_by_key(&k, |p| p.docid).unwrap_or_else(|x| x)`
on a slice sorted with pairwise-distinct docids — the number of postings
whose docid is smaller than `k`, i.e. the leftmost insertion point. -/
def lowerIdx (postings : List Posting) (k : Nat) : Nat :=
  postings.countP (fun p => decide (p.docid < k))

/-- One partition of the parallel path of `compute_dot_product`: the
postings whose docid lies in `[a, b)` are located by two binary searches
on the sorted store and accumulated into the chunk `out` at offset
`docid - a` (`out[(posting.docid - *a) as usize] += query_value * posting.value`). -/
def chunkAccum (query_value : ℚ) (postings : List Posting) (a b : Nat) (out : List ℚ) :
    List ℚ :=
  ((postings.drop (lowerIdx postings a)).take (lowerIdx postings b - lowerIdx postings a)).foldl
    (fun sc p => sc.set (p.docid - a) (sc.getD (p.docid - a) 0 + query_value * p.value)) out

/-- Parallel path of `compute_dot_product`: the score buffer is cut into
chunks of `s` entries (`scores.chunks_mut(partition_size)`, with bounds
`begin` and `end = min (begin + s) len`), each chunk is filled from its
own posting sub-range, and the chunks are re-joined.  Rust derives `s`
as `ceil(num_docs / current_num_threads())` in `f32` arithmetic; the
definition is parametrised by an arbitrary chunk size, which covers
every thread count.  Rust panics when `s = 0` (`chunks_mut(0)`); the
model returns the buffer unchanged in that degenerate case and the
theorems assume `1 ≤ s`. -/
def parAccum (query_value : ℚ) (postings : List Posting) (s : Nat) (start : Nat)
    (scores : List ℚ) : List ℚ :=
  if _hs : s = 0 then scores
  else
    match scores with
    | [] => []
    | x :: xs =>
      chunkAccum query_value postings start (start + ((x :: xs).take s).length)
          ((x :: xs).take s) ++
        parAccum query_value postings s (start + ((x :: xs).take s).length) ((x :: xs).drop s)
termination_by scores.length
decreasing_by simp [List.length_drop]; omega

/-- Rust `Index::compute_dot_product`.  The receiver is threaded through
explicitly (the Rust signature takes `&mut self`); `s` is the partition
size used by the parallel branch. -/
def Index.compute_dot_product (idx : Index) (s : Nat) (coordinate : Nat) (query_value : ℚ)
    (scores : List ℚ) : Index × List ℚ :=
  match lookupStore idx.inverted_index coordinate with
  | none => (idx, scores)
  | some postings =>
    if idx.parallel then (idx, parAccum query_value postings s 0 scores)
    else (idx, accumPostings query_value postings scores)

/-- A retrieval result (`SearchResult { docid, score }`). -/
structure SearchResult where
  docid : Nat
  score : ℚ
deriving DecidableEq

/-- Push into the bounded min-heap, modelled as a list kept sorted
ascending by score (`BinaryHeap<Reverse<SearchResult>>`, faithful up to
the ordering of equal scores, which the binary heap leaves
unspecified). -/
def hpush (e : SearchResult) : List SearchResult → List SearchResult
  | [] => [e]
  | x :: xs => if e.score ≤ x.score then e :: x :: xs else x :: hpush e xs

/-- Strict admission test `score > threshold` of the top-k loop.  The
threshold starts at `f32::MIN`, a value strictly below every score the
rational model can produce; it is represented by `none`. -/
def thLt (th : Option ℚ) (s : ℚ) : Bool :=
  match th with
  | none => true
  | some t => decide (t < s)

/-- One iteration of the top-k loop of `retrieve`: admit the entry when
its score strictly exceeds the threshold; after a push that grows the
heap beyond `top_k`, pop the minimum and make its score the new
threshold. -/
def selStep (top_k : Nat) (st : List SearchResult × Option ℚ) (ds : Nat × ℚ) :
    List SearchResult × Option ℚ :=
  if thLt st.2 ds.2 then
    match hpush ⟨ds.1, ds.2⟩ st.1 with
    | [] => ([], st.2)
    | m :: rest =>
      if top_k < (m :: rest).length then (rest, some m.score) else (m :: rest, st.2)
  else st

/-- Top-k phase of `retrieve`: scan the score buffer with the bounded
min-heap, then return the kept results sorted descending by score
(`heap.into_sorted_vec()` over `Reverse` wrappers). -/
def selectTopK (scores : List ℚ) (top_k : Nat) : List SearchResult :=
  ((scores.enum.foldl (selStep top_k) ([], none)).1).reverse

/-- Budget-path ordering of the query coordinates:
`v2.abs().partial_cmp(&v1.abs())`, i.e. descending absolute weight. -/
def absGE (u v : Nat × ℚ) : Prop := |v.2| ≤ |u.2|

instance : DecidableRel absGE := fun u v => inferInstanceAs (Decidable (|v.2| ≤ |u.2|))

instance : IsTotal (Nat × ℚ) absGE := ⟨fun _ _ => le_total _ _⟩

instance : IsTrans (Nat × ℚ) absGE := ⟨fun _ _ _ h h' => le_trans h' h⟩

/-- Sorted copy of the query built by the budgeted path of `retrieve`. -/
def sortQuery (query : List (Nat × ℚ)) : List (Nat × ℚ) := query.insertionSort absGE

/-- Budgeted scoring loop of `retrieve`.  Wall-clock time is modelled by
the oracle list: `oracle.headD 0` is `scoring_time`, the measured cost
of the current coordinate.  The loop scores a coordinate, subtracts the
measured cost from the remaining budget (saturating at zero:
`if time_left > scoring_time { time_left - scoring_time } else { ZERO }`)
and stops once the remainder is zero. -/
def budgetLoop (s : Nat) : List (Nat × ℚ) → List Nat → Nat → Index × List ℚ → Index × List ℚ
  | [], _, _, st => st
  | cv :: rest, oracle, time_left, st =>
    let st' := st.1.compute_dot_product s cv.1 cv.2 st.2
    let elapsed := oracle.headD 0
    let time_left' := if elapsed < time_left then time_left - elapsed else 0
    if time_left' = 0 then st'
    else budgetLoop s rest oracle.tail time_left' st'

/-- No-budget scoring loop of `retrieve`: fold over the query
coordinates, threading the index through `compute_dot_product`. -/
def scoreLoop (s : Nat) (query : List (Nat × ℚ)) (st : Index × List ℚ) : Index × List ℚ :=
  query.foldl (fun st cv => st.1.compute_dot_product s cv.1 cv.2 st.2) st

/-- Rust `Index::retrieve`.  Arguments beyond the source signature: `s`
is the parallel partition size (derived in Rust from the global thread
count) and `oracle` lists the wall-clock measurements taken by the
budgeted path (`Instant::now() … elapsed()`).  Returns the threaded
receiver together with the ranked results. -/
def Index.retrieve (idx : Index) (s : Nat) (query : List (Nat × ℚ)) (top_k : Nat)
    (inner_product_budget : Option Nat) (oracle : List Nat) : Index × List SearchResult :=
  let scores0 := List.replicate idx.num_docs (0 : ℚ)
  match inner_product_budget with
  | none =>
    let st := scoreLoop s query (idx, scores0)
    (st.1, selectTopK st.2 top_k)
  | some budget =>
    let st := budgetLoop s (sortQuery query) oracle budget (idx, scores0)
    (st.1, selectTopK st.2 top_k)

/-- Model of an `f32` score for the NaN-safety analysis of the top-k
phase: either NaN or a finite value. -/
inductive FVal where
  | nan : FVal
  | fin (q : ℚ) : FVal
deriving DecidableEq

/-- Rust `f32::partial_cmp`: NaN is incomparable with everything. -/
def fcmp : FVal → FVal → Option Ordering
  | .nan, _ => none
  | _, .nan => none
  | .fin a, .fin b => some (compare a b)

/-- Rust `>` on `f32` (`PartialOrd::gt`): true exactly when
`partial_cmp` returns `Some(Greater)`; in particular always false when
either side is NaN. -/
def fgtb (a b : FVal) : Bool := fcmp a b == some Ordering.gt

/-- Rust `<` on `f32` (`PartialOrd::lt`). -/
def fltb (a b : FVal) : Bool := fcmp a b == some Ordering.lt

/-- A retrieval result with a possibly-NaN score. -/
structure SearchResultF where
  docid : Nat
  score : FVal
deriving DecidableEq

/-- Whether every pair of scores drawn from the list is comparable —
exactly the condition under which no comparison a binary-heap operation
over these entries can make would hit the `unwrap` inside
`impl Ord for SearchResult` on `None`. -/
def allComp (l : List FVal) : Bool :=
  l.all (fun x => l.all (fun y => (fcmp x y).isSome))

/-- Extraction of a minimal element (the element `BinaryHeap::pop`
returns from the `Reverse` min-heap) together with the remaining
entries. -/
def minExtract : SearchResultF → List SearchResultF → SearchResultF × List SearchResultF
  | e, [] => (e, [])
  | e, x :: xs =>
    if fltb x.score e.score then ((minExtract x xs).1, e :: (minExtract x xs).2)
    else ((minExtract e xs).1, x :: (minExtract e xs).2)

/-- Heap pop with its comparisons made explicit: `none` models the
panic of the `unwrap` inside the `Ord` implementation if any two
entries the heap may compare are incomparable (a NaN score). -/
def popMinF (h : List SearchResultF) : Option (SearchResultF × List SearchResultF) :=
  match h with
  | [] => none
  | e :: rest =>
    if allComp ((e :: rest).map SearchResultF.score) then some (minExtract e rest) else none

/-- One iteration of the top-k loop over possibly-NaN scores; the state
becomes `none` once a heap operation has panicked. -/
def selStepF (top_k : Nat) (st : Option (List SearchResultF × FVal)) (ds : Nat × FVal) :
    Option (List SearchResultF × FVal) :=
  match st with
  | none => none
  | some (h, th) =>
    if fgtb ds.2 th then
      if allComp ((⟨ds.1, ds.2⟩ :: h).map SearchResultF.score) then
        if top_k < (⟨ds.1, ds.2⟩ :: h).length then
          (popMinF (⟨ds.1, ds.2⟩ :: h)).map (fun mr => (mr.2, mr.1.score))
        else some (⟨ds.1, ds.2⟩ :: h, th)
      else none
    else some (h, th)

/-- Descending sort of the drained heap (`into_sorted_vec` over
`Reverse` wrappers). -/
def sortDescF (h : List SearchResultF) : List SearchResultF :=
  h.insertionSort (fun a b => fltb b.score a.score = true)

/-- Top-k phase of `retrieve` over possibly-NaN scores, with every heap
comparison modelled; `none` is a panic of the total-order `unwrap`.
`minv` stands for `f32::MIN`, the initial threshold. -/
def selectTopKF (scores : List FVal) (minv : ℚ) (top_k : Nat) : Option (List SearchResultF) :=
  (scores.enum.foldl (selStepF top_k) (some ([], FVal.fin minv))).bind
    (fun st => if allComp (st.1.map SearchResultF.score) then some (sortDescF st.1) else none)

/-- Token of the binary persistence stream. -/
inductive Tok where
  | nat (n : Nat) : Tok
  | val (q : ℚ) : Tok
deriving DecidableEq

/-- Modelled from the spec: `save(writer)` of §4.8 is not part of
`src/`; the spec requires only that it serialize every Posting Store
and `num_docs` to a binary stream.  The model emits `num_docs`, the
number of coordinates, then each coordinate with its postings. -/
def save (idx : Index) : List Tok :=
  Tok.nat idx.num_docs :: Tok.nat idx.inverted_index.length ::
    idx.inverted_index.foldr
      (fun e acc =>
        Tok.nat e.1 :: Tok.nat e.2.length ::
          e.2.foldr (fun p acc2 => Tok.nat p.docid :: Tok.val p.value :: acc2) acc)
      []

/-- Modelled from the spec: posting-list section of `load` (§4.8). -/
def loadPostings : Nat → List Tok → Option (List Posting × List Tok)
  | 0, toks => some ([], toks)
  | n + 1, Tok.nat d :: Tok.val v :: toks =>
    (loadPostings n toks).map (fun r => (⟨d, v⟩ :: r.1, r.2))
  | _ + 1, _ => none

/-- Modelled from the spec: coordinate section of `load` (§4.8). -/
def loadStores : Nat → List Tok → Option (List (Nat × List Posting) × List Tok)
  | 0, toks => some ([], toks)
  | n + 1, Tok.nat c :: Tok.nat len :: toks =>
    (loadPostings len toks).bind
      (fun r => (loadStores n r.2).map (fun r2 => ((c, r.1) :: r2.1, r2.2)))
  | _ + 1, _ => none

/-- Modelled from the spec: `load(reader)` of §4.8, the inverse of
`save`; a malformed stream yields `none` (the DeserializationError of
§7).  The parallel flag is not part of the serialized aggregate and
comes back `false`. -/
def load (toks : List Tok) : Option Index :=
  match toks with
  | Tok.nat nd :: Tok.nat len :: rest =>
    (loadStores len rest).bind (fun r => if r.2 = [] then some ⟨r.1, nd, false⟩ else none)
  | _ => none

/-- Index built by a sequence of `insert` calls on a fresh index, in
call order. -/
def buildIndex (par : Bool) (docs : List (List (Nat × ℚ))) : Index :=
  docs.foldl Index.insert (Index.new par)

/-- Spec-side description of a posting store: the postings that the
documents `docs`, inserted with docids `n, n+1, …`, contribute to
coordinate `c`, in call order. -/
def storeSpecFrom (c : Nat) : Nat → List (List (Nat × ℚ)) → List Posting
  | _, [] => []
  | n, d :: rest =>
    (match alookup c d with
     | some v => [⟨n, v⟩]
     | none => []) ++ storeSpecFrom c (n + 1) rest

/-- Exact sparse inner product of a query and a document: the sum over
the query's entries of query weight times document weight, absent
document coordinates contributing zero. -/
def innerProduct (query doc : List (Nat × ℚ)) : ℚ :=
  (query.map (fun cv => cv.2 * (alookup cv.1 doc).getD 0)).sum

/-- Total value mass that a posting list carries for docid `d`. -/
def sumAt (postings : List Posting) (d : Nat) : ℚ :=
  ((postings.filter (fun p => p.docid == d)).map Posting.value).sum

/-- Indexes reachable through the build interface: `new`, `insert`,
`finalize`. -/
inductive Reachable : Index → Prop where
  | mk_new (par : Bool) : Reachable (Index.new par)
  | mk_insert {idx : Index} (doc : List (Nat × ℚ)) :
      Reachable idx → Reachable (idx.insert doc)
  | mk_finalize {idx : Index} : Reachable idx → Reachable idx.finalize

/-- Invariant of the top-k selection loop after the processed prefix
`L` of the enumerated score buffer: the heap is an ascending list of
distinct processed entries of size `min top_k |L|`; every processed
entry outside the heap is bounded by the threshold, which in turn
bounds the heap from below and exists only once `top_k` entries have
been seen. -/
structure SelInv (top_k : Nat) (L : List (Nat × ℚ)) (st : List SearchResult × Option ℚ) :
    Prop where
  sorted : List.Sorted (fun a b => a.score ≤ b.score) st.1
  mem_src : ∀ e ∈ st.1, ((e.docid, e.score) : Nat × ℚ) ∈ L
  nodup : (st.1.map SearchResult.docid).Nodup
  len : st.1.length = min top_k L.length
  outside : ∀ p ∈ L, p.1 ∉ st.1.map SearchResult.docid → ∃ t, st.2 = some t ∧ p.2 ≤ t
  above : ∀ t, st.2 = some t → ∀ e ∈ st.1, t ≤ e.score
  full : ∀ t, st.2 = some t → top_k ≤ L.length

/-! ### Finalize: sortedness and idempotence -/

lemma finalize_num_docs (idx : Index) : idx.finalize.num_docs = idx.num_docs := rfl

lemma finalize_parallel (idx : Index) : idx.finalize.parallel = idx.parallel := rfl

/-- C7: `finalize()` reorders every posting store to ascending docid
order, and calling it twice leaves the index exactly as one call does. -/
theorem finalize_sorts_and_idempotent (idx : Index) :
    (∀ e ∈ idx.finalize.inverted_index, List.Sorted postingLE e.2) ∧
      idx.finalize.finalize = idx.finalize := by
  constructor
  · intro e he
    simp only [Index.finalize, List.mem_map] at he
    obtain ⟨a, _, rfl⟩ := he
    exact List.sorted_insertionSort postingLE a.2
  · simp only [Index.finalize, List.map_map]
    congr 1
    apply List.map_congr_left
    intro a _
    simp only [Function.comp_apply]
    congr 1
    exact (List.sorted_insertionSort postingLE a.2).insertionSort_eq

/-- Witness for C7 at a concrete index. -/
theorem finalize_sorts_and_idempotent_witness :
    (buildIndex false [[(5, 2)], [(5, 1)]]).finalize.finalize =
      (buildIndex false [[(5, 2)], [(5, 1)]]).finalize :=
  (finalize_sorts_and_idempotent (buildIndex false [[(5, 2)], [(5, 1)]])).2

/-! ### Persistence round-trip -/

lemma loadPostings_roundtrip (ps : List Posting) (rest : List Tok) :
    loadPostings ps.length
        (ps.foldr (fun p acc2 => Tok.nat p.docid :: Tok.val p.value :: acc2) rest) =
      some (ps, rest) := by
  induction ps with
  | nil => rfl
  | cons p ps ih => simp [loadPostings, ih]

lemma loadStores_roundtrip (m : List (Nat × List Posting)) (rest : List Tok) :
    loadStores m.length
        (m.foldr
          (fun e acc =>
            Tok.nat e.1 :: Tok.nat e.2.length ::
              e.2.foldr (fun p acc2 => Tok.nat p.docid :: Tok.val p.value :: acc2) acc)
          rest) =
      some (m, rest) := by
  induction m with
  | nil => rfl
  | cons e m ih => simp [loadStores, loadPostings_roundtrip, ih]

lemma load_save (idx : Index) :
    load (save idx) = some ⟨idx.inverted_index, idx.num_docs, false⟩ := by
  simp [load, save, loadStores_roundtrip]

/-- C6: `load(save(index))` succeeds and yields an index with identical
`num_docs` and, for every coordinate, an identical posting store. -/
theorem load_save_roundtrip (idx : Index) :
    ∃ idx2, load (save idx) = some idx2 ∧ idx2.num_docs = idx.num_docs ∧
      ∀ c, lookupStore idx2.inverted_index c = lookupStore idx.inverted_index c := by
  exact ⟨⟨idx.inverted_index, idx.num_docs, false⟩, load_save idx, rfl, fun _ => rfl⟩

/-! ### Posting-store contents of a built index -/

lemma storeAt_nil (c : Nat) : storeAt [] c = [] := rfl

lemma storeAt_cons (e : Nat × List Posting) (rest : List (Nat × List Posting)) (c : Nat) :
    storeAt (e :: rest) c = if e.1 == c then e.2 else storeAt rest c := by
  simp only [storeAt, lookupStore, List.find?_cons]
  cases h : e.1 == c <;> simp [h]

lemma storeAt_pushPosting (m : List (Nat × List Posting)) (c' : Nat) (p : Posting) (c : Nat) :
    storeAt (pushPosting m c' p) c = storeAt m c ++ (if c' == c then [p] else []) := by
  induction m with
  | nil =>
    simp only [pushPosting, storeAt_nil, storeAt_cons, List.nil_append]
  | cons e rest ih =>
    simp only [pushPosting]
    by_cases he : e.1 = c'
    · subst he
      simp only [beq_self_eq_true, if_true, storeAt_cons]
      by_cases hc : e.1 = c <;> simp [hc]
    · have heb : (e.1 == c') = false := by simpa using he
      simp only [heb, Bool.false_eq_true, if_false, storeAt_cons, ih]
      by_cases hc : e.1 = c
      · subst hc
        have : (c' == e.1) = false := by
          simp only [beq_eq_false_iff_ne, ne_eq]
          exact fun hcc => he hcc.symm
        simp [this]
      · simp [hc]

lemma storeAt_insert_fold (pairs : List (Nat × ℚ)) (n : Nat) (m : List (Nat × List Posting))
    (c : Nat) :
    storeAt (pairs.foldl (fun m cv => pushPosting m cv.1 ⟨n, cv.2⟩) m) c =
      storeAt m c ++
        (pairs.filter (fun cv => cv.1 == c)).map (fun cv => (⟨n, cv.2⟩ : Posting)) := by
  induction pairs generalizing m with
  | nil => simp
  | cons cv pairs ih =>
    simp only [List.foldl_cons, ih, storeAt_pushPosting, List.filter_cons]
    cases h : cv.1 == c <;> simp [h, List.append_assoc]

lemma filter_map_eq_alookup (pairs : List (Nat × ℚ)) (c n : Nat)
    (h : (pairs.map Prod.fst).Nodup) :
    (pairs.filter (fun cv => cv.1 == c)).map (fun cv => (⟨n, cv.2⟩ : Posting)) =
      (match alookup c pairs with
       | some v => [(⟨n, v⟩ : Posting)]
       | none => []) := by
  induction pairs with
  | nil => rfl
  | cons cv pairs ih =>
    simp only [List.map_cons, List.nodup_cons] at h
    simp only [List.filter_cons, alookup, List.find?_cons]
    by_cases hc : cv.1 == c
    · have hc' : cv.1 = c := by simpa using hc
      have : pairs.filter (fun cv => cv.1 == c) = [] := by
        apply List.filter_eq_nil_iff.2
        intro x hx
        have : x.1 ∈ pairs.map Prod.fst := List.mem_map_of_mem Prod.fst hx
        intro hxc
        exact h.1 (by rw [hc', ← (show x.1 = c by simpa using hxc)]; exact this)
      simp [hc, this]
    · have := ih h.2
      simp only [alookup] at this
      simp [hc, this]

lemma num_docs_insert (idx : Index) (doc : List (Nat × ℚ)) :
    (idx.insert doc).num_docs = idx.num_docs + 1 := rfl

lemma storeAt_insert (idx : Index) (doc : List (Nat × ℚ)) (c : Nat)
    (h : (doc.map Prod.fst).Nodup) :
    storeAt (idx.insert doc).inverted_index c =
      storeAt idx.inverted_index c ++
        (match alookup c doc with
         | some v => [(⟨idx.num_docs, v⟩ : Posting)]
         | none => []) := by
  simp only [Index.insert, storeAt_insert_fold, filter_map_eq_alookup doc c idx.num_docs h]

lemma num_docs_foldl_insert (docs : List (List (Nat × ℚ))) (idx : Index) :
    (docs.foldl Index.insert idx).num_docs = idx.num_docs + docs.length := by
  induction docs generalizing idx with
  | nil => simp
  | cons d docs ih => simp [ih, num_docs_insert]; omega

lemma storeAt_foldl_insert (docs : List (List (Nat × ℚ))) (idx : Index) (c : Nat)
    (h : ∀ doc ∈ docs, (doc.map Prod.fst).Nodup) :
    storeAt (docs.foldl Index.insert idx).inverted_index c =
      storeAt idx.inverted_index c ++ storeSpecFrom c idx.num_docs docs := by
  induction docs generalizing idx with
  | nil => simp [storeSpecFrom]
  | cons d docs ih =>
    simp only [List.foldl_cons, storeSpecFrom]
    rw [ih _ (fun doc hd => h doc (List.mem_cons_of_mem d hd)),
      storeAt_insert idx d c (h d (List.mem_cons_self d docs)), num_docs_insert,
      List.append_assoc]

lemma storeSpecFrom_docid_ge (c : Nat) (docs : List (List (Nat × ℚ))) (n : Nat) :
    ∀ p ∈ storeSpecFrom c n docs, n ≤ p.docid := by
  induction docs generalizing n with
  | nil => simp [storeSpecFrom]
  | cons d docs ih =>
    intro p hp
    simp only [storeSpecFrom, List.mem_append] at hp
    rcases hp with hp | hp
    · cases h : alookup c d <;> simp [h] at hp
      simp [hp]
    · exact Nat.le_of_succ_le (ih (n + 1) p hp)

lemma storeSpecFrom_pairwise (c : Nat) (docs : List (List (Nat × ℚ))) (n : Nat) :
    List.Pairwise (fun p q => p.docid < q.docid) (storeSpecFrom c n docs) := by
  induction docs generalizing n with
  | nil => simp [storeSpecFrom]
  | cons d docs ih =>
    simp only [storeSpecFrom]
    cases h : alookup c d
    · simpa [h] using ih (n + 1)
    · simp only [h, List.singleton_append, List.pairwise_cons]
      exact ⟨fun q hq => Nat.lt_of_succ_le (storeSpecFrom_docid_ge c docs (n + 1) q hq),
        ih (n + 1)⟩

/-- C5: building an index by a sequence of `insert` calls assigns docid
`n` to the n-th call: afterwards `num_docs` is the number of calls, and
every coordinate's posting store lists exactly the contributions of the
documents containing that coordinate, in call order, with strictly
increasing docids. -/
theorem insert_assigns_docids_in_order (par : Bool) (docs : List (List (Nat × ℚ)))
    (h : ∀ doc ∈ docs, (doc.map Prod.fst).Nodup) :
    (buildIndex par docs).num_docs = docs.length ∧
      ∀ c, storeAt (buildIndex par docs).inverted_index c = storeSpecFrom c 0 docs ∧
        List.Pairwise (fun p q => p.docid < q.docid)
          (storeAt (buildIndex par docs).inverted_index c) := by
  refine ⟨by simp [buildIndex, num_docs_foldl_insert, Index.new], fun c => ?_⟩
  have hst : storeAt (buildIndex par docs).inverted_index c = storeSpecFrom c 0 docs := by
    have := storeAt_foldl_insert docs (Index.new par) c h
    simpa [buildIndex, Index.new, storeAt_nil] using this
  exact ⟨hst, hst ▸ storeSpecFrom_pairwise c docs 0⟩

/-- Witness for C5 at a concrete build sequence. -/
theorem insert_assigns_docids_in_order_witness :
    (buildIndex false [[(1, 4/10), (5, 6/10)], [(2, 4/10), (5, 9/10)]]).num_docs = 2 :=
  (insert_assigns_docids_in_order false [[(1, 4/10), (5, 6/10)], [(2, 4/10), (5, 9/10)]]
    (by decide)).1

/-! ### Reachability invariant: docids are below `num_docs` -/

lemma storeAt_finalize (idx : Index) (c : Nat) :
    storeAt idx.finalize.inverted_index c =
      (storeAt idx.inverted_index c).insertionSort postingLE := by
  show storeAt (idx.inverted_index.map fun e => (e.1, e.2.insertionSort postingLE)) c = _
  induction idx.inverted_index with
  | nil => simp [storeAt_nil]
  | cons e rest ih =>
    simp only [List.map_cons, storeAt_cons]
    by_cases hc : e.1 = c <;> simp [hc, ih]

lemma storeAt_insert_all (idx : Index) (doc : List (Nat × ℚ)) (c : Nat) :
    storeAt (idx.insert doc).inverted_index c =
      storeAt idx.inverted_index c ++
        (doc.filter (fun cv => cv.1 == c)).map
          (fun cv => (⟨idx.num_docs, cv.2⟩ : Posting)) := by
  simp only [Index.insert, storeAt_insert_fold]

lemma lookupStore_eq_storeAt{m : List (Nat × List Posting)} {c : Nat} {ps : List Posting}
    (h : lookupStore m c = some ps) : storeAt m c = ps := by
  simp [storeAt, h]

/-- C9: on every index reachable through `new`, `insert` and
`finalize`, every posting's docid is strictly below `num_docs`, hence
strictly below the length of the score buffer
(`List.replicate num_docs 0`) that `retrieve` allocates — every score
write `scores[posting.docid]` is in bounds. -/
theorem reachable_docids_in_bounds {idx : Index} (h : Reachable idx) :
    ∀ c ps, lookupStore idx.inverted_index c = some ps →
      ∀ p ∈ ps, p.docid < idx.num_docs ∧
        p.docid < (List.replicate idx.num_docs (0 : ℚ)).length := by
  have main : ∀ c, ∀ p ∈ storeAt idx.inverted_index c, p.docid < idx.num_docs := by
    induction h with
    | mk_new par => intro c p hp; simp [Index.new, storeAt_nil] at hp
    | mk_insert doc _ ih =>
      intro c p hp
      rw [storeAt_insert_all] at hp
      rcases List.mem_append.1 hp with hp | hp
      · exact Nat.lt_succ_of_lt (ih c p hp)
      · rcases List.mem_map.1 hp with ⟨cv, _, rfl⟩
        exact Nat.lt_succ_self _
    | mk_finalize _ ih =>
      intro c p hp
      rw [storeAt_finalize] at hp
      exact ih c p ((List.mem_insertionSort postingLE).1 hp)
  intro c ps hps p hp
  have := main c p (lookupStore_eq_storeAt hps ▸ hp)
  exact ⟨this, by simpa using this⟩

/-- Witness for C9: instantiation at a concretely built index and a
concrete posting. -/
theorem reachable_docids_in_bounds_witness :
    (⟨0, (2 : ℚ)⟩ : Posting).docid < (((Index.new false).insert [(5, 2)]).num_docs) :=
  (reachable_docids_in_bounds
    (Reachable.mk_insert [(5, 2)] (Reachable.mk_new false)) 5 [⟨0, 2⟩] (by decide)
    ⟨0, 2⟩ (by decide)).1

/-! ### Retrieve does not modify the index -/

lemma compute_dot_product_fst (idx : Index) (s coordinate : Nat) (query_value : ℚ)
    (scores : List ℚ) : (idx.compute_dot_product s coordinate query_value scores).1 = idx := by
  unfold Index.compute_dot_product
  cases lookupStore idx.inverted_index coordinate
  · rfl
  · by_cases hp : idx.parallel <;> simp [hp]

lemma scoreLoop_fst (s : Nat) (query : List (Nat × ℚ)) (st : Index × List ℚ) :
    (scoreLoop s query st).1 = st.1 := by
  induction query generalizing st with
  | nil => rfl
  | cons cv rest ih =>
    show (scoreLoop s rest (st.1.compute_dot_product s cv.1 cv.2 st.2)).1 = st.1
    rw [ih, compute_dot_product_fst]

lemma budgetLoop_fst (s : Nat) (coords : List (Nat × ℚ)) (oracle : List Nat)
    (time_left : Nat) (st : Index × List ℚ) :
    (budgetLoop s coords oracle time_left st).1 = st.1 := by
  induction coords generalizing oracle time_left st with
  | nil => rfl
  | cons cv rest ih =>
    simp only [budgetLoop]
    split
    · split
      · exact compute_dot_product_fst ..
      · rw [ih, compute_dot_product_fst]
    · rw [if_pos rfl]
      exact compute_dot_product_fst ..

/-- C8: `retrieve` never modifies the index: the threaded receiver it
returns has the same coordinate-to-store mapping, the same `num_docs`
and the same parallel flag as before the call, for every query, `top_k`
and budget. -/
theorem retrieve_preserves_index (idx : Index) (s : Nat) (query : List (Nat × ℚ))
    (top_k : Nat) (budget : Option Nat) (oracle : List Nat) :
    (idx.retrieve s query top_k budget oracle).1.inverted_index = idx.inverted_index ∧
      (idx.retrieve s query top_k budget oracle).1.num_docs = idx.num_docs ∧
      (idx.retrieve s query top_k budget oracle).1.parallel = idx.parallel := by
  have : (idx.retrieve s query top_k budget oracle).1 = idx := by
    cases budget with
    | none => simp [Index.retrieve, scoreLoop_fst]
    | some b => simp [Index.retrieve, budgetLoop_fst]
  simp [this]

/-! ### Serial scoring computes exact inner products -/

lemma sumAt_nil (d : Nat) : sumAt [] d = 0 := rfl

lemma sumAt_cons (p : Posting) (ps : List Posting) (d : Nat) :
    sumAt (p :: ps) d = (if p.docid = d then p.value else 0) + sumAt ps d := by
  simp only [sumAt, List.filter_cons]
  by_cases h : p.docid = d <;> simp [h]

lemma sumAt_append (l1 l2 : List Posting) (d : Nat) :
    sumAt (l1 ++ l2) d = sumAt l1 d + sumAt l2 d := by
  simp [sumAt, List.filter_append]

lemma sumAt_eq_zero (l : List Posting) (d : Nat) (h : ∀ p ∈ l, p.docid ≠ d) :
    sumAt l d = 0 := by
  have : l.filter (fun p => p.docid == d) = [] :=
    List.filter_eq_nil_iff.2 (fun p hp => by simpa using h p hp)
  simp [sumAt, this]

lemma accumPostings_length (qv : ℚ) (postings : List Posting) (scores : List ℚ) :
    (accumPostings qv postings scores).length = scores.length := by
  induction postings generalizing scores with
  | nil => rfl
  | cons p ps ih =>
    show (accumPostings qv ps _).length = _
    rw [ih, List.length_set]

lemma accumPostings_getD (qv : ℚ) (postings : List Posting) (scores : List ℚ) (d : Nat)
    (hd : d < scores.length) :
    (accumPostings qv postings scores).getD d 0 = scores.getD d 0 + qv * sumAt postings d := by
  induction postings generalizing scores with
  | nil => simp [accumPostings, sumAt_nil]
  | cons p ps ih =>
    show (accumPostings qv ps
      (scores.set p.docid (scores.getD p.docid 0 + qv * p.value))).getD d 0 = _
    rw [ih _ (by rw [List.length_set]; exact hd), sumAt_cons]
    by_cases hpd : p.docid = d
    · subst hpd
      rw [List.getD_eq_getElem?_getD, List.getElem?_set, if_pos rfl, if_pos hd]
      simp only [Option.getD_some, if_pos rfl, if_true, List.getD_eq_getElem?_getD]
      ring
    · rw [List.getD_eq_getElem?_getD, List.getElem?_set, if_neg hpd,
        ← List.getD_eq_getElem?_getD, if_neg hpd]
      ring

lemma compute_dot_product_serial (idx : Index) (hpar : idx.parallel = false) (s c : Nat)
    (qv : ℚ) (scores : List ℚ) :
    idx.compute_dot_product s c qv scores =
      (idx, accumPostings qv (storeAt idx.inverted_index c) scores) := by
  unfold Index.compute_dot_product
  cases h : lookupStore idx.inverted_index c
  · simp [storeAt, h, accumPostings]
  · simp [storeAt, h, hpar]

lemma buildIndex_parallel (par : Bool) (docs : List (List (Nat × ℚ))) :
    (buildIndex par docs).parallel = par := by
  suffices h : ∀ idx : Index, (docs.foldl Index.insert idx).parallel = idx.parallel by
    exact h (Index.new par)
  induction docs with
  | nil => intro idx; rfl
  | cons d rest ih => intro idx; exact ih (idx.insert d)

lemma scoreLoop_snd_getD (idx : Index) (hpar : idx.parallel = false) (s : Nat)
    (query : List (Nat × ℚ)) (scores : List ℚ) (d : Nat) (hd : d < scores.length) :
    (scoreLoop s query (idx, scores)).2.getD d 0 =
      scores.getD d 0 +
        (query.map (fun cv => cv.2 * sumAt (storeAt idx.inverted_index cv.1) d)).sum := by
  induction query generalizing scores with
  | nil => simp [scoreLoop]
  | cons cv rest ih =>
    show (scoreLoop s rest (idx.compute_dot_product s cv.1 cv.2 scores)).2.getD d 0 = _
    rw [compute_dot_product_serial idx hpar,
      ih _ (by rw [accumPostings_length]; exact hd),
      accumPostings_getD _ _ _ _ hd, List.map_cons, List.sum_cons, add_assoc]

lemma sumAt_storeSpecFrom_lt (c : Nat) (docs : List (List (Nat × ℚ))) (n d : Nat)
    (h : d < n) : sumAt (storeSpecFrom c n docs) d = 0 := by
  apply sumAt_eq_zero
  intro p hp
  have := storeSpecFrom_docid_ge c docs n p hp
  omega

lemma sumAt_storeSpecFrom (c : Nat) (docs : List (List (Nat × ℚ))) (n d : Nat)
    (hn : n ≤ d) (hd : d - n < docs.length) :
    sumAt (storeSpecFrom c n docs) d = (alookup c (docs.getD (d - n) [])).getD 0 := by
  induction docs generalizing n with
  | nil => simp at hd
  | cons doc rest ih =>
    simp only [storeSpecFrom, sumAt_append]
    by_cases hdn : d = n
    · subst hdn
      have htail : sumAt (storeSpecFrom c (d + 1) rest) d = 0 :=
        sumAt_storeSpecFrom_lt c rest (d + 1) d (Nat.lt_succ_self d)
      rw [htail, Nat.sub_self]
      cases h : alookup c doc <;> simp [h, sumAt_cons, sumAt_nil]
    · have hlt : n < d := Nat.lt_of_le_of_ne hn (fun he => hdn he.symm)
      have hhead : sumAt (match alookup c doc with
          | some v => [(⟨n, v⟩ : Posting)]
          | none => []) d = 0 := by
        cases h : alookup c doc
        · simp [h, sumAt_nil]
        · simp only [h, sumAt_cons, sumAt_nil]
          rw [if_neg (by omega)]
          ring
      rw [hhead, zero_add, ih (n + 1) hlt (by simp only [List.length_cons] at hd; omega)]
      have : d - n = (d - (n + 1)) + 1 := by omega
      rw [this]
      rfl

/-- C1: on an index built by `insert` calls, serial (non-parallel,
non-budgeted) scoring accumulates for every docid `d` exactly the inner
product of document `d` and the query: the sum over the query's entries
of query weight times document weight, coordinates absent from the
index or the document contributing zero. -/
theorem serial_score_is_inner_product (docs : List (List (Nat × ℚ)))
    (h : ∀ doc ∈ docs, (doc.map Prod.fst).Nodup) (query : List (Nat × ℚ)) (s d : Nat)
    (hd : d < docs.length) :
    (scoreLoop s query
        (buildIndex false docs,
          List.replicate (buildIndex false docs).num_docs (0 : ℚ))).2.getD d 0 =
      innerProduct query (docs.getD d []) := by
  have hnum : (buildIndex false docs).num_docs = docs.length :=
    (insert_assigns_docids_in_order false docs h).1
  have hd' : d < (List.replicate (buildIndex false docs).num_docs (0 : ℚ)).length := by
    simpa [hnum] using hd
  rw [scoreLoop_snd_getD _ (buildIndex_parallel false docs) _ _ _ _ hd']
  have hzero : (List.replicate (buildIndex false docs).num_docs (0 : ℚ)).getD d 0 = 0 := by
    rw [List.getD_eq_getElem?_getD, List.getElem?_replicate]
    simp [hnum, hd]
  rw [hzero, zero_add, innerProduct]
  have hmapeq :
      query.map
          (fun cv => cv.2 * sumAt (storeAt (buildIndex false docs).inverted_index cv.1) d) =
        query.map (fun cv => cv.2 * (alookup cv.1 (docs.getD d [])).getD 0) :=
    List.map_congr_left (fun cv _ => by
      rw [((insert_assigns_docids_in_order false docs h).2 cv.1).1,
        sumAt_storeSpecFrom cv.1 docs 0 d (Nat.zero_le d) (by simpa using hd), Nat.sub_zero])
  rw [hmapeq]

/-- Witness for C1: the spec's concrete scenario, document 1 against
the query `{13 : 0.4, 5 : 1.2}` (coordinate 13 absent). -/
theorem serial_score_is_inner_product_witness :
    (scoreLoop 1 [(13, 2/5), (5, 6/5)]
        (buildIndex false [[(1, 2/5), (5, 3/5)], [(2, 2/5), (5, 9/10)]],
          List.replicate
            (buildIndex false [[(1, 2/5), (5, 3/5)], [(2, 2/5), (5, 9/10)]]).num_docs
            (0 : ℚ))).2.getD 1 0 =
      innerProduct [(13, 2/5), (5, 6/5)]
        ([[(1, 2/5), (5, 3/5)], [(2, 2/5), (5, 9/10)]].getD 1 []) :=
  serial_score_is_inner_product [[(1, 2/5), (5, 3/5)], [(2, 2/5), (5, 9/10)]]
    (by decide) [(13, 2/5), (5, 6/5)] 1 1 (by decide)

/-! ### Parallel scoring coincides with serial scoring -/

lemma lowerIdx_nil (k : Nat) : lowerIdx [] k = 0 := rfl

lemma lowerIdx_cons (p : Posting) (ps : List Posting) (k : Nat) :
    lowerIdx (p :: ps) k = lowerIdx ps k + (if p.docid < k then 1 else 0) := by
  simp [lowerIdx, List.countP_cons]

lemma lowerIdx_eq_zero {l : List Posting} {k : Nat} (h : ∀ p ∈ l, ¬ p.docid < k) :
    lowerIdx l k = 0 := by
  simp only [lowerIdx, List.countP_eq_zero]
  intro p hp
  simpa using h p hp

lemma lowerIdx_mono (l : List Posting) {a b : Nat} (h : b ≤ a) :
    lowerIdx l b ≤ lowerIdx l a := by
  induction l with
  | nil => exact Nat.le_refl _
  | cons p ps ih =>
    rw [lowerIdx_cons, lowerIdx_cons]
    split_ifs <;> omega

/-- On a store sorted with strictly increasing docids, the binary-search
slice `[lowerIdx a, lowerIdx b)` is exactly the set of postings whose
docid falls in `[a, b)`. -/
lemma slice_eq_filter (postings : List Posting)
    (hsorted : List.Pairwise (fun p q => p.docid < q.docid) postings) (a b : Nat) :
    (postings.drop (lowerIdx postings a)).take (lowerIdx postings b - lowerIdx postings a) =
      postings.filter (fun p => decide (a ≤ p.docid) && decide (p.docid < b)) := by
  induction postings with
  | nil => simp [lowerIdx_nil]
  | cons p ps ih =>
    have hp := (List.pairwise_cons.1 hsorted).1
    have hs := (List.pairwise_cons.1 hsorted).2
    by_cases hpa : p.docid < a
    · rw [lowerIdx_cons, lowerIdx_cons, if_pos hpa]
      by_cases hpb' : p.docid < b
      · rw [if_pos hpb', Nat.add_sub_add_right, List.drop_succ_cons, List.filter_cons_of_neg
          (by simp [Nat.not_le.2 hpa]), ih hs]
      · have hmono : lowerIdx ps b ≤ lowerIdx ps a :=
          lowerIdx_mono ps (by omega)
        rw [if_neg hpb']
        have hz : lowerIdx ps b + 0 - (lowerIdx ps a + 1) = 0 := by omega
        rw [hz, List.take_zero]
        symm
        apply List.filter_eq_nil_iff.2
        intro q hq
        rcases List.mem_cons.1 hq with rfl | hq
        · simp only [Bool.and_eq_true, decide_eq_true_eq, not_and]
          omega
        · have := hp q hq
          simp only [Bool.and_eq_true, decide_eq_true_eq, not_and]
          omega
    · have hza : lowerIdx ps a = 0 := lowerIdx_eq_zero (fun q hq => by
        have := hp q hq; omega)
      rw [lowerIdx_cons, lowerIdx_cons, if_neg hpa, hza]
      by_cases hpb : p.docid < b
      · rw [if_pos hpb, List.drop_zero, Nat.add_zero, Nat.zero_add, Nat.sub_zero,
          List.take_succ_cons, List.filter_cons_of_pos (by simp [Nat.not_lt.1 hpa, hpb])]
        have := ih hs
        rw [hza, List.drop_zero, Nat.sub_zero] at this
        rw [this]
      · have hzb : lowerIdx ps b = 0 := lowerIdx_eq_zero (fun q hq => by
          have := hp q hq; omega)
        rw [if_neg hpb, hzb]
        simp only [Nat.add_zero, Nat.zero_add, Nat.sub_zero, List.drop_zero, List.take_zero]
        symm
        apply List.filter_eq_nil_iff.2
        intro q hq
        rcases List.mem_cons.1 hq with rfl | hq
        · simp [hpb]
        · have := hp q hq
          have hqb : ¬ q.docid < b := by omega
          simp [hqb]

lemma chunkFold_getD (qv : ℚ) (a : Nat) (l : List Posting) (out : List ℚ) (j : Nat)
    (hj : j < out.length) (hge : ∀ p ∈ l, a ≤ p.docid) :
    (l.foldl (fun sc p => sc.set (p.docid - a) (sc.getD (p.docid - a) 0 + qv * p.value))
        out).getD j 0 =
      out.getD j 0 + qv * sumAt l (a + j) := by
  induction l generalizing out with
  | nil => simp [sumAt_nil]
  | cons p ps ih =>
    have hga : a ≤ p.docid := hge p (List.mem_cons_self p ps)
    simp only [List.foldl_cons]
    rw [ih _ (by rw [List.length_set]; exact hj)
      (fun q hq => hge q (List.mem_cons_of_mem p hq)), sumAt_cons]
    by_cases hpd : p.docid - a = j
    · have hpd' : p.docid = a + j := by omega
      rw [List.getD_eq_getElem?_getD, List.getElem?_set, if_pos hpd, if_pos (hpd ▸ hj)]
      simp only [Option.getD_some, if_pos hpd', List.getD_eq_getElem?_getD]
      rw [hpd]
      ring
    · have hpd' : ¬ p.docid = a + j := by omega
      rw [List.getD_eq_getElem?_getD, List.getElem?_set, if_neg hpd,
        ← List.getD_eq_getElem?_getD, if_neg hpd']
      ring

lemma sumAt_filter_range (postings : List Posting) (a b d : Nat) (ha : a ≤ d) (hb : d < b) :
    sumAt (postings.filter (fun p => decide (a ≤ p.docid) && decide (p.docid < b))) d =
      sumAt postings d := by
  simp only [sumAt, List.filter_filter]
  congr 2
  apply List.filter_congr
  intro p _
  by_cases hpd : p.docid = d
  · subst hpd
    simp [ha, hb]
  · simp [hpd]

lemma chunkFold_length (qv : ℚ) (a : Nat) (l : List Posting) (out : List ℚ) :
    (l.foldl (fun sc p => sc.set (p.docid - a) (sc.getD (p.docid - a) 0 + qv * p.value))
        out).length = out.length := by
  induction l generalizing out with
  | nil => rfl
  | cons p ps ih =>
    simp only [List.foldl_cons]
    rw [ih, List.length_set]

lemma chunkAccum_length (qv : ℚ) (postings : List Posting) (a b : Nat) (out : List ℚ) :
    (chunkAccum qv postings a b out).length = out.length :=
  chunkFold_length qv a _ out

/-- Per-chunk correctness: on a strictly sorted store, the chunk for
the docid range `[a, a + out.length)` receives at offset `j` exactly
the contribution of docid `a + j`. -/
lemma chunkAccum_getD (qv : ℚ) (postings : List Posting)
    (hsorted : List.Pairwise (fun p q => p.docid < q.docid) postings) (a : Nat)
    (out : List ℚ) (j : Nat) (hj : j < out.length) :
    (chunkAccum qv postings a (a + out.length) out).getD j 0 =
      out.getD j 0 + qv * sumAt postings (a + j) := by
  unfold chunkAccum
  rw [slice_eq_filter postings hsorted a (a + out.length),
    chunkFold_getD qv a _ out j hj (fun p hp => by
      have h2 := List.of_mem_filter hp
      simp only [Bool.and_eq_true, decide_eq_true_eq] at h2
      exact h2.1),
    sumAt_filter_range postings a (a + out.length) (a + j) (Nat.le_add_right a j)
      (by omega)]

lemma parAccum_zero (qv : ℚ) (postings : List Posting) (start : Nat) (scores : List ℚ) :
    parAccum qv postings 0 start scores = scores := by
  rw [parAccum.eq_def]
  simp

lemma parAccum_nil (qv : ℚ) (postings : List Posting) (s start : Nat) :
    parAccum qv postings s start [] = [] := by
  rw [parAccum.eq_def]
  split <;> rfl

lemma parAccum_cons (qv : ℚ) (postings : List Posting) (s start : Nat) (x : ℚ)
    (xs : List ℚ) (hs : s ≠ 0) :
    parAccum qv postings s start (x :: xs) =
      chunkAccum qv postings start (start + ((x :: xs).take s).length) ((x :: xs).take s) ++
        parAccum qv postings s (start + ((x :: xs).take s).length) ((x :: xs).drop s) := by
  rw [parAccum.eq_def]
  simp [hs]

lemma parAccum_length (qv : ℚ) (postings : List Posting) (s : Nat) :
    ∀ (n : Nat) (scores : List ℚ), scores.length ≤ n → ∀ start,
      (parAccum qv postings s start scores).length = scores.length := by
  intro n
  induction n with
  | zero =>
    intro scores h start
    rw [List.length_eq_zero.1 (Nat.le_zero.1 h), parAccum_nil]
  | succ n ih =>
    intro scores h start
    by_cases hs : s = 0
    · rw [hs, parAccum_zero]
    · match scores with
      | [] => rw [parAccum_nil]
      | x :: xs =>
        have hlen : (x :: xs).length ≤ n + 1 := h
        have hdrop : ((x :: xs).drop s).length ≤ n := by
          simp only [List.length_drop, List.length_cons]
          simp only [List.length_cons] at hlen
          omega
        rw [parAccum_cons _ _ _ _ _ _ hs, List.length_append, chunkAccum_length,
          ih ((x :: xs).drop s) hdrop _]
        simp only [List.length_take, List.length_drop, List.length_cons]
        omega

lemma parAccum_getD (qv : ℚ) (postings : List Posting)
    (hsorted : List.Pairwise (fun p q => p.docid < q.docid) postings) (s : Nat)
    (hs : s ≠ 0) :
    ∀ (n : Nat) (scores : List ℚ), scores.length ≤ n → ∀ (start d : Nat),
      d < scores.length →
      (parAccum qv postings s start scores).getD d 0 =
        scores.getD d 0 + qv * sumAt postings (start + d) := by
  intro n
  induction n with
  | zero => intro scores h start d hd; omega
  | succ n ih =>
    intro scores h start d hd
    match scores with
    | [] => simp at hd
    | x :: xs =>
      rw [parAccum_cons _ _ _ _ _ _ hs]
      have hchunklen : (chunkAccum qv postings start
          (start + ((x :: xs).take s).length) ((x :: xs).take s)).length =
          ((x :: xs).take s).length := chunkAccum_length ..
      have htk : ((x :: xs).take s).length = min s (x :: xs).length := List.length_take ..
      by_cases hdc : d < ((x :: xs).take s).length
      · rw [List.getD_eq_getElem?_getD, List.getElem?_append,
          if_pos (by rw [hchunklen]; exact hdc), ← List.getD_eq_getElem?_getD,
          chunkAccum_getD qv postings hsorted start _ d hdc]
        have hds : d < s := by rw [htk] at hdc; omega
        have hgd : ((x :: xs).take s).getD d 0 = (x :: xs).getD d 0 := by
          rw [List.getD_eq_getElem?_getD, List.getElem?_take, if_pos hds,
            ← List.getD_eq_getElem?_getD]
        rw [hgd]
      · have hsd : s ≤ d := by rw [htk] at hdc; omega
        have htk' : ((x :: xs).take s).length = s := by rw [htk]; omega
        rw [List.getD_eq_getElem?_getD, List.getElem?_append,
          if_neg (by rw [hchunklen, htk']; omega), hchunklen, htk']
        have hdrop_le : ((x :: xs).drop s).length ≤ n := by
          simp only [List.length_drop, List.length_cons]
          simp only [List.length_cons] at h
          omega
        have hdlt : d - s < ((x :: xs).drop s).length := by
          simp only [List.length_drop]
          omega
        rw [← List.getD_eq_getElem?_getD, ih _ hdrop_le _ _ hdlt]
        have hidx : start + s + (d - s) = start + d := by omega
        have hgd : ((x :: xs).drop s).getD (d - s) 0 = (x :: xs).getD d 0 := by
          rw [List.getD_eq_getElem?_getD, List.getElem?_drop, ← List.getD_eq_getElem?_getD]
          congr 1
          omega
        rw [hidx, hgd]

lemma getElem?_eq_some_getD (l : List ℚ) (n : Nat) (h : n < l.length) :
    l[n]? = some (l.getD n 0) := by
  rw [List.getElem?_eq_getElem h, List.getD_eq_getElem?_getD, List.getElem?_eq_getElem h]
  rfl

/-- On a strictly sorted posting store, the partitioned parallel
accumulation produces exactly the serial accumulation, for every
nonzero chunk size. -/
lemma parAccum_eq_accumPostings (qv : ℚ) (postings : List Posting)
    (hsorted : List.Pairwise (fun p q => p.docid < q.docid) postings) (s : Nat)
    (hs : s ≠ 0) (scores : List ℚ) :
    parAccum qv postings s 0 scores = accumPostings qv postings scores := by
  have h1 : (parAccum qv postings s 0 scores).length = scores.length :=
    parAccum_length qv postings s scores.length scores (Nat.le_refl _) 0
  have h2 : (accumPostings qv postings scores).length = scores.length :=
    accumPostings_length qv postings scores
  apply List.ext_getElem?
  intro n
  by_cases hn : n < scores.length
  · rw [getElem?_eq_some_getD _ _ (by omega), getElem?_eq_some_getD _ _ (by omega),
      parAccum_getD qv postings hsorted s hs scores.length scores (Nat.le_refl _) 0 n hn,
      accumPostings_getD qv postings scores n hn, Nat.zero_add]
  · rw [List.getElem?_eq_none (by omega), List.getElem?_eq_none (by omega)]

lemma pairwise_lt_of_sorted_nodup (l : List Posting) (hs : List.Sorted postingLE l)
    (hnd : (l.map Posting.docid).Nodup) :
    List.Pairwise (fun p q => p.docid < q.docid) l := by
  have hne : List.Pairwise (fun p q : Posting => p.docid ≠ q.docid) l :=
    List.pairwise_map.1 hnd
  have := List.Pairwise.and hs hne
  exact this.imp (fun h => Nat.lt_of_le_of_ne h.1 h.2)

lemma finalize_store_pairwise (idx : Index)
    (hnd : ∀ c, ((storeAt idx.inverted_index c).map Posting.docid).Nodup) (c : Nat) :
    List.Pairwise (fun p q => p.docid < q.docid)
      (storeAt idx.finalize.inverted_index c) := by
  rw [storeAt_finalize]
  apply pairwise_lt_of_sorted_nodup
  · exact List.sorted_insertionSort postingLE _
  · exact (((storeAt idx.inverted_index c).perm_insertionSort postingLE).map
      Posting.docid).nodup_iff.2 (hnd c)

lemma compute_dot_product_parallel_serial_snd (idx1 idx2 : Index)
    (hmap : idx1.inverted_index = idx2.inverted_index) (hp2 : idx2.parallel = false)
    (s : Nat) (hs : s ≠ 0) (c : Nat) (qv : ℚ) (scores : List ℚ)
    (hsorted : List.Pairwise (fun p q => p.docid < q.docid)
      (storeAt idx1.inverted_index c)) :
    (idx1.compute_dot_product s c qv scores).2 =
      (idx2.compute_dot_product s c qv scores).2 := by
  rw [compute_dot_product_serial idx2 hp2]
  unfold Index.compute_dot_product
  rw [← hmap]
  cases h : lookupStore idx1.inverted_index c
  · simp [storeAt, h, accumPostings]
  · rename_i ps
    have hps : storeAt idx1.inverted_index c = ps := lookupStore_eq_storeAt h
    by_cases hpar : idx1.parallel
    · simp only [hpar, if_true]
      rw [parAccum_eq_accumPostings qv ps (hps ▸ hsorted) s hs scores, hps]
    · simp only [hpar, if_false, Bool.false_eq_true]
      rw [hps]

lemma scoreLoop_snd_congr (idx1 idx2 : Index)
    (hmap : idx1.inverted_index = idx2.inverted_index) (hp2 : idx2.parallel = false)
    (s : Nat) (hs : s ≠ 0)
    (hsorted : ∀ c, List.Pairwise (fun p q => p.docid < q.docid)
      (storeAt idx1.inverted_index c)) :
    ∀ (query : List (Nat × ℚ)) (scores : List ℚ),
      (scoreLoop s query (idx1, scores)).2 = (scoreLoop s query (idx2, scores)).2 := by
  intro query
  induction query with
  | nil => intro scores; rfl
  | cons cv rest ih =>
    intro scores
    show (scoreLoop s rest (idx1.compute_dot_product s cv.1 cv.2 scores)).2 =
      (scoreLoop s rest (idx2.compute_dot_product s cv.1 cv.2 scores)).2
    have e1 : idx1.compute_dot_product s cv.1 cv.2 scores =
        (idx1, (idx1.compute_dot_product s cv.1 cv.2 scores).2) :=
      Prod.ext_iff.2 ⟨compute_dot_product_fst .., rfl⟩
    have e2 : idx2.compute_dot_product s cv.1 cv.2 scores =
        (idx2, (idx2.compute_dot_product s cv.1 cv.2 scores).2) :=
      Prod.ext_iff.2 ⟨compute_dot_product_fst .., rfl⟩
    rw [e1, e2, compute_dot_product_parallel_serial_snd idx1 idx2 hmap hp2 s hs cv.1 cv.2
      scores (hsorted cv.1)]
    exact ih _

/-- C2: after `finalize()`, the intra-query parallel scoring path
(binary-search partitioning of each sorted store over disjoint score
buffer chunks) produces exactly the serial scores, for every chunk size
`1 ≤ s` — hence for every partition count — every query and every
initial buffer.  The hypothesis asks that no store holds two postings
with the same docid, which holds on every index built by `insert`. -/
theorem parallel_scoring_matches_serial (idx : Index)
    (hnd : ∀ c, ((storeAt idx.inverted_index c).map Posting.docid).Nodup)
    (s : Nat) (hs : 1 ≤ s) (query : List (Nat × ℚ)) (scores : List ℚ) :
    (scoreLoop s query
        ((⟨idx.finalize.inverted_index, idx.finalize.num_docs, true⟩ : Index), scores)).2 =
      (scoreLoop s query
        ((⟨idx.finalize.inverted_index, idx.finalize.num_docs, false⟩ : Index),
          scores)).2 :=
  scoreLoop_snd_congr
    ⟨idx.finalize.inverted_index, idx.finalize.num_docs, true⟩
    ⟨idx.finalize.inverted_index, idx.finalize.num_docs, false⟩
    rfl rfl s (by omega) (fun c => finalize_store_pairwise idx hnd c) query scores

lemma storeAt_nodup_of_entries (m : List (Nat × List Posting))
    (h : ∀ e ∈ m, (e.2.map Posting.docid).Nodup) (c : Nat) :
    ((storeAt m c).map Posting.docid).Nodup := by
  cases hf : m.find? (fun e => e.1 == c) with
  | none => simp [storeAt, lookupStore, hf]
  | some e =>
    have he : storeAt m c = e.2 := by simp [storeAt, lookupStore, hf]
    rw [he]
    exact h e (List.mem_of_find?_eq_some hf)

/-- Witness for C2: concrete finalized two-document index, chunk size 1. -/
theorem parallel_scoring_matches_serial_witness :
    (scoreLoop 1 [(5, 6/5)]
        ((⟨(buildIndex true [[(1, 2/5), (5, 3/5)], [(2, 2/5), (5, 9/10)]]).finalize.inverted_index,
          (buildIndex true [[(1, 2/5), (5, 3/5)], [(2, 2/5), (5, 9/10)]]).finalize.num_docs,
          true⟩ : Index), [0, 0])).2 =
      (scoreLoop 1 [(5, 6/5)]
        ((⟨(buildIndex true [[(1, 2/5), (5, 3/5)], [(2, 2/5), (5, 9/10)]]).finalize.inverted_index,
          (buildIndex true [[(1, 2/5), (5, 3/5)], [(2, 2/5), (5, 9/10)]]).finalize.num_docs,
          false⟩ : Index), [0, 0])).2 :=
  parallel_scoring_matches_serial (buildIndex true [[(1, 2/5), (5, 3/5)], [(2, 2/5), (5, 9/10)]])
    (storeAt_nodup_of_entries _ (by decide)) 1 (by decide) [(5, 6/5)] [0, 0]

/-! ### Top-k selection -/

lemma hpush_perm (e : SearchResult) (h : List SearchResult) :
    List.Perm (hpush e h) (e :: h) := by
  induction h with
  | nil => exact List.Perm.refl _
  | cons x xs ih =>
    unfold hpush
    by_cases hc : e.score ≤ x.score
    · rw [if_pos hc]
    · rw [if_neg hc]
      exact (ih.cons x).trans (List.Perm.swap e x xs)

lemma hpush_length (e : SearchResult) (h : List SearchResult) :
    (hpush e h).length = h.length + 1 := by
  simpa using (hpush_perm e h).length_eq

lemma hpush_mem {x e : SearchResult} {h : List SearchResult} :
    x ∈ hpush e h ↔ x = e ∨ x ∈ h := by
  rw [(hpush_perm e h).mem_iff, List.mem_cons]

lemma hpush_sorted (e : SearchResult) (h : List SearchResult)
    (hs : List.Sorted (fun a b => a.score ≤ b.score) h) :
    List.Sorted (fun a b => a.score ≤ b.score) (hpush e h) := by
  induction h with
  | nil => simp [hpush]
  | cons x xs ih =>
    unfold hpush
    by_cases hc : e.score ≤ x.score
    · rw [if_pos hc]
      refine List.sorted_cons.2 ⟨?_, hs⟩
      intro b hb
      rcases List.mem_cons.1 hb with rfl | hb
      · exact hc
      · exact le_trans hc (List.rel_of_sorted_cons hs b hb)
    · rw [if_neg hc]
      refine List.sorted_cons.2 ⟨?_, ih hs.of_cons⟩
      intro b hb
      rcases hpush_mem.1 hb with rfl | hb
      · exact le_of_not_le hc
      · exact List.rel_of_sorted_cons hs b hb

lemma selInv_nil (top_k : Nat) : SelInv top_k [] ([], none) := by
  constructor
  · exact List.sorted_nil
  · intro e he; simp at he
  · simp
  · simp
  · intro p hp; simp at hp
  · intro t ht; simp at ht
  · intro t ht; simp at ht

lemma thLt_none (s : ℚ) : thLt none s = true := rfl

lemma thLt_some (t s : ℚ) : thLt (some t) s = decide (t < s) := rfl

/-- One selection step preserves the loop invariant when the incoming
entry has a fresh docid. -/
lemma selStep_inv {top_k : Nat} {L : List (Nat × ℚ)} {st : List SearchResult × Option ℚ}
    (inv : SelInv top_k L st) (hLnd : (L.map Prod.fst).Nodup) {p : Nat × ℚ}
    (hfresh : p.1 ∉ L.map Prod.fst) :
    SelInv top_k (L ++ [p]) (selStep top_k st p) := by
  obtain ⟨d, s⟩ := p
  simp only at hfresh
  have hdoc_sub : ∀ e ∈ st.1, e.docid ∈ L.map Prod.fst := fun e he =>
    List.mem_map_of_mem Prod.fst (inv.mem_src e he)
  have hd_not : d ∉ st.1.map SearchResult.docid := by
    intro hmem
    rcases List.mem_map.1 hmem with ⟨e, he, hde⟩
    exact hfresh (hde ▸ hdoc_sub e he)
  by_cases hth : thLt st.2 s = true
  · -- admitted
    rcases hh : hpush ⟨d, s⟩ st.1 with _ | ⟨m, rest⟩
    · have := hpush_length ⟨d, s⟩ st.1
      rw [hh] at this
      simp at this
    have hsorted' : List.Sorted (fun a b => a.score ≤ b.score) (m :: rest) :=
      hh ▸ hpush_sorted ⟨d, s⟩ st.1 inv.sorted
    have hperm : List.Perm (m :: rest) (⟨d, s⟩ :: st.1) := hh ▸ hpush_perm ⟨d, s⟩ st.1
    have hmem' : ∀ {x : SearchResult}, x ∈ m :: rest ↔ x = ⟨d, s⟩ ∨ x ∈ st.1 :=
      fun {x} => by rw [hperm.mem_iff, List.mem_cons]
    have hlen' : (m :: rest).length = st.1.length + 1 := by
      simpa using hperm.length_eq
    have hnodup' : ((m :: rest).map SearchResult.docid).Nodup := by
      refine ((hperm.map SearchResult.docid).nodup_iff).2 ?_
      simp only [List.map_cons, List.nodup_cons]
      refine ⟨?_, inv.nodup⟩
      simpa using hd_not
    have hth_le : ∀ t, st.2 = some t → t < s := by
      intro t ht
      rw [ht, thLt_some, decide_eq_true_eq] at hth
      exact hth
    have habove' : ∀ t, st.2 = some t → ∀ e ∈ m :: rest, t ≤ e.score := by
      intro t ht e he
      rcases hmem'.1 he with rfl | he
      · exact le_of_lt (hth_le t ht)
      · exact inv.above t ht e he
    have hmem_src' : ∀ e ∈ m :: rest, ((e.docid, e.score) : Nat × ℚ) ∈ L ++ [(d, s)] := by
      intro e he
      rcases hmem'.1 he with rfl | he
      · simp
      · exact List.mem_append_left _ (inv.mem_src e he)
    simp only [selStep, hth, if_true, hh]
    by_cases hfull : top_k < (m :: rest).length
    · -- push then evict the minimum
      have hLfull : top_k ≤ L.length := by
        have h1 := inv.len
        omega
      have hm_min : ∀ x ∈ m :: rest, m.score ≤ x.score := by
        intro x hx
        rcases List.mem_cons.1 hx with rfl | hx
        · exact le_refl _
        · exact List.rel_of_sorted_cons hsorted' x hx
      have hm_in : m ∈ m :: rest := List.mem_cons_self m rest
      rw [if_pos hfull]
      constructor
      · exact hsorted'.of_cons
      · intro e he; exact hmem_src' e (List.mem_cons_of_mem m he)
      · exact (List.nodup_cons.1 (by simpa using hnodup')).2
      · have h1 := inv.len
        simp only [List.length_append, List.length_singleton]
        simp only [List.length_cons] at hfull hlen'
        omega
      · intro q hq hqnot
        refine ⟨m.score, rfl, ?_⟩
        rcases List.mem_append.1 hq with hq | hq
        · by_cases hq_in : q.1 ∈ st.1.map SearchResult.docid
          · rcases List.mem_map.1 hq_in with ⟨e, he, hde⟩
            have he' : e ∈ m :: rest := hmem'.2 (Or.inr he)
            rcases List.mem_cons.1 he' with rfl | he''
            · -- the evicted element is exactly q's heap entry
              have hqe : q = (e.docid, e.score) :=
                List.inj_on_of_nodup_map hLnd hq (inv.mem_src e he) (by rw [hde])
              rw [hqe]
            · exact absurd (hde ▸ List.mem_map_of_mem SearchResult.docid he'') hqnot
          · rcases inv.outside q hq hq_in with ⟨t, ht, hqt⟩
            refine le_trans hqt ?_
            rcases hmem'.1 hm_in with rfl | hmold
            · exact le_of_lt (hth_le t ht)
            · exact inv.above t ht m hmold
        · rcases List.mem_singleton.1 hq with rfl
          rcases hmem'.1 (hmem'.2 (Or.inl rfl)) with h2 | h2
          · -- the new element itself: either it is the evicted minimum …
            rcases List.mem_cons.1 (hmem'.2 (Or.inl rfl)) with h3 | h3
            · rw [← h3]
            · exact absurd (List.mem_map_of_mem SearchResult.docid h3) (by simpa using hqnot)
          · exact absurd (hdoc_sub _ h2) hfresh
      · intro t ht e he
        obtain rfl : m.score = t := Option.some.inj ht
        exact hm_min e (List.mem_cons_of_mem m he)
      · intro t _
        simp only [List.length_append, List.length_singleton]
        omega
    · -- heap not yet over capacity
      rw [if_neg hfull]
      constructor
      · exact hsorted'
      · exact hmem_src'
      · exact hnodup'
      · have h1 := inv.len
        simp only [List.length_cons] at hfull hlen'
        simp only [List.length_append, List.length_singleton, List.length_cons,
          List.length_nil]
        omega
      · intro q hq hqnot
        rcases List.mem_append.1 hq with hq | hq
        · have hq_not1 : q.1 ∉ st.1.map SearchResult.docid := by
            intro hin
            rcases List.mem_map.1 hin with ⟨e, he, hde⟩
            exact hqnot (hde ▸ List.mem_map_of_mem SearchResult.docid (hmem'.2 (Or.inr he)))
          exact inv.outside q hq hq_not1
        · rcases List.mem_singleton.1 hq with rfl
          exact absurd
            (List.mem_map_of_mem SearchResult.docid (hmem'.2 (Or.inl rfl))) hqnot
      · exact habove'
      · intro t ht
        have := inv.full t ht
        simp only [List.length_append, List.length_singleton]
        omega
  · -- rejected by the threshold
    have hsome : ∃ t, st.2 = some t ∧ ¬ t < s := by
      cases hst : st.2 with
      | none => rw [hst, thLt_none] at hth; exact absurd rfl hth
      | some t =>
        rw [hst, thLt_some] at hth
        exact ⟨t, rfl, by simpa using hth⟩
    rcases hsome with ⟨t, hst, hts⟩
    simp only [selStep, hth, if_false, Bool.false_eq_true]
    constructor
    · exact inv.sorted
    · intro e he; exact List.mem_append_left _ (inv.mem_src e he)
    · exact inv.nodup
    · have := inv.full t hst
      have h1 := inv.len
      simp only [List.length_append, List.length_singleton]
      omega
    · intro q hq hqnot
      rcases List.mem_append.1 hq with hq | hq
      · exact inv.outside q hq hqnot
      · rcases List.mem_singleton.1 hq with rfl
        exact ⟨t, hst, le_of_not_lt hts⟩
    · exact inv.above
    · intro t' ht'
      have := inv.full t' ht'
      simp only [List.length_append, List.length_singleton]
      omega

lemma selFold_inv {top_k : Nat} :
    ∀ (rest L : List (Nat × ℚ)) (st : List SearchResult × Option ℚ),
      SelInv top_k L st → ((L ++ rest).map Prod.fst).Nodup →
      SelInv top_k (L ++ rest) (rest.foldl (selStep top_k) st) := by
  intro rest
  induction rest with
  | nil =>
    intro L st inv _
    simpa using inv
  | cons p rest ih =>
    intro L st inv hnd
    have hnd' : (((L ++ [p]) ++ rest).map Prod.fst).Nodup := by
      rw [← List.append_cons]
      exact hnd
    have hparts := hnd
    rw [List.map_append, List.nodup_append] at hparts
    have hfresh : p.1 ∉ L.map Prod.fst := by
      intro hin
      exact hparts.2.2 hin (by simp)
    have step := selStep_inv inv hparts.1 hfresh
    rw [List.append_cons, List.foldl_cons]
    exact ih (L ++ [p]) (selStep top_k st p) step hnd'

lemma compute_dot_product_snd_length (idx : Index) (s c : Nat) (qv : ℚ)
    (scores : List ℚ) :
    (idx.compute_dot_product s c qv scores).2.length = scores.length := by
  unfold Index.compute_dot_product
  cases h : lookupStore idx.inverted_index c
  · rfl
  · rename_i ps
    by_cases hp : idx.parallel
    · simp only [hp, if_true]
      exact parAccum_length qv ps s scores.length scores (Nat.le_refl _) 0
    · simp only [hp, if_false, Bool.false_eq_true]
      exact accumPostings_length qv ps scores

lemma scoreLoop_snd_length (s : Nat) (query : List (Nat × ℚ)) :
    ∀ st : Index × List ℚ, (scoreLoop s query st).2.length = st.2.length := by
  induction query with
  | nil => intro st; rfl
  | cons cv rest ih =>
    intro st
    show (scoreLoop s rest (st.1.compute_dot_product s cv.1 cv.2 st.2)).2.length = _
    rw [ih, compute_dot_product_snd_length]

/-- Full characterisation of the heap-based top-k phase: the result has
length `min top_k n`, is sorted descending, carries distinct docids each
paired with its own buffer score, and dominates every non-returned
score. -/
lemma selectTopK_spec (scores : List ℚ) (top_k : Nat) :
    (selectTopK scores top_k).length = min top_k scores.length ∧
      List.Sorted (fun a b => b.score ≤ a.score) (selectTopK scores top_k) ∧
      ((selectTopK scores top_k).map SearchResult.docid).Nodup ∧
      (∀ e ∈ selectTopK scores top_k, e.docid < scores.length ∧
        e.score = scores.getD e.docid 0) ∧
      (∀ d, d < scores.length → d ∉ (selectTopK scores top_k).map SearchResult.docid →
        ∀ e ∈ selectTopK scores top_k, scores.getD d 0 ≤ e.score) := by
  have inv : SelInv top_k scores.enum (scores.enum.foldl (selStep top_k) ([], none)) := by
    have h0 := selFold_inv scores.enum [] ([], none) (selInv_nil top_k)
      (by simpa using (List.enum_map_fst scores ▸ List.nodup_range scores.length))
    simpa using h0
  have henum_len : scores.enum.length = scores.length := List.enum_length
  have hmem_score : ∀ e ∈ (scores.enum.foldl (selStep top_k) ([], none)).1,
      e.docid < scores.length ∧ e.score = scores.getD e.docid 0 := by
    intro e he
    have h2 := inv.mem_src e he
    rw [List.mem_enum_iff_getElem?] at h2
    have hlt : e.docid < scores.length := by
      by_contra hge
      rw [List.getElem?_eq_none (Nat.le_of_not_lt hge)] at h2
      exact Option.noConfusion h2
    refine ⟨hlt, ?_⟩
    rw [List.getD_eq_getElem?_getD, h2]
    rfl
  unfold selectTopK
  refine ⟨?_, ?_, ?_, ?_, ?_⟩
  · rw [List.length_reverse, inv.len, henum_len]
  · rw [show (List.Sorted (fun a b : SearchResult => b.score ≤ a.score)
      (scores.enum.foldl (selStep top_k) ([], none)).1.reverse) =
      List.Pairwise (fun a b : SearchResult => b.score ≤ a.score)
        (scores.enum.foldl (selStep top_k) ([], none)).1.reverse from rfl,
      List.pairwise_reverse]
    exact inv.sorted
  · rw [List.map_reverse, List.nodup_reverse]
    exact inv.nodup
  · intro e he
    exact hmem_score e (List.mem_reverse.1 he)
  · intro d hd hdnot e he
    have hd_enum : ((d, scores.getD d 0) : Nat × ℚ) ∈ scores.enum := by
      rw [List.mem_enum_iff_getElem?]
      exact getElem?_eq_some_getD scores d hd
    have hdnot' : d ∉ (scores.enum.foldl (selStep top_k) ([], none)).1.map
        SearchResult.docid := by
      intro hin
      apply hdnot
      rw [List.map_reverse, List.mem_reverse]
      exact hin
    rcases inv.outside (d, scores.getD d 0) hd_enum hdnot' with ⟨t, ht, hle⟩
    exact le_trans hle (inv.above t ht e (List.mem_reverse.1 he))

/-- C3: `retrieve(query, top_k, none)` returns `min top_k num_docs`
results with pairwise-distinct docids, sorted descending by score, each
result paired with its own buffer score, and every returned score at
least every non-returned document's score.  In particular
`top_k ≥ num_docs` returns all documents and `num_docs = 0` or
`top_k = 0` returns the empty sequence. -/
theorem retrieve_topk_properties (idx : Index) (s : Nat) (query : List (Nat × ℚ))
    (top_k : Nat) :
    ((idx.retrieve s query top_k none []).2).length = min top_k idx.num_docs ∧
      List.Sorted (fun a b => b.score ≤ a.score) (idx.retrieve s query top_k none []).2 ∧
      (((idx.retrieve s query top_k none []).2).map SearchResult.docid).Nodup ∧
      (∀ e ∈ (idx.retrieve s query top_k none []).2, e.docid < idx.num_docs ∧
        e.score = (scoreLoop s query
          (idx, List.replicate idx.num_docs (0 : ℚ))).2.getD e.docid 0) ∧
      (∀ d, d < idx.num_docs →
        d ∉ ((idx.retrieve s query top_k none []).2).map SearchResult.docid →
        ∀ e ∈ (idx.retrieve s query top_k none []).2,
          (scoreLoop s query
            (idx, List.replicate idx.num_docs (0 : ℚ))).2.getD d 0 ≤ e.score) := by
  have hsc_len : (scoreLoop s query (idx, List.replicate idx.num_docs (0 : ℚ))).2.length =
      idx.num_docs := by
    rw [scoreLoop_snd_length]
    exact List.length_replicate ..
  have hr : (idx.retrieve s query top_k none []).2 =
      selectTopK (scoreLoop s query (idx, List.replicate idx.num_docs (0 : ℚ))).2 top_k :=
    rfl
  have hspec := selectTopK_spec
    (scoreLoop s query (idx, List.replicate idx.num_docs (0 : ℚ))).2 top_k
  rw [hr]
  rw [hsc_len] at hspec
  exact hspec

/-- Witness for C3 at the spec's concrete scenario. -/
theorem retrieve_topk_properties_witness :
    (((buildIndex false [[(1, 2/5), (5, 3/5)], [(2, 2/5), (5, 9/10)]]).retrieve 1
        [(13, 2/5), (5, 6/5)] 2 none []).2).length =
      min 2 (buildIndex false [[(1, 2/5), (5, 3/5)], [(2, 2/5), (5, 9/10)]]).num_docs :=
  (retrieve_topk_properties (buildIndex false [[(1, 2/5), (5, 3/5)], [(2, 2/5), (5, 9/10)]])
    1 [(13, 2/5), (5, 6/5)] 2).1

/-! ### Zero time budget -/

/-- Counterexample to C4 as stated: with a time budget of zero the code
still scores the first coordinate — the admission check runs only after
a coordinate has been scored — so the retrieved score is `2`, not `0`:
one insert of `{5 ↦ 1}`, query `{5 ↦ 2}`, budget `0`. -/
theorem retrieve_zero_budget_counterexample :
    ((buildIndex false [[(5, 1)]]).retrieve 1 [(5, 2)] 1 (some 0) []).2 =
      [⟨0, 2⟩] ∧ (2 : ℚ) ≠ 0 := by
  constructor
  · have harith : (0 : ℚ) + 2 * 1 = 2 := by norm_num
    calc ((buildIndex false [[(5, 1)]]).retrieve 1 [(5, 2)] 1 (some 0) []).2
        = [⟨0, (0 : ℚ) + 2 * 1⟩] := rfl
      _ = [⟨0, 2⟩] := by rw [harith]
  · norm_num

/-- C4 (amended): with a zero budget, `retrieve` scores exactly one
coordinate — the head of the descending-absolute-weight ordering of the
query — and then stops; with an empty query the scores stay all zero.
The result is never affected by the measured-time oracle. -/
theorem retrieve_zero_budget (idx : Index) (s : Nat) (query : List (Nat × ℚ))
    (top_k : Nat) (oracle : List Nat) :
    (idx.retrieve s query top_k (some 0) oracle).2 =
      selectTopK
        (match sortQuery query with
         | [] => List.replicate idx.num_docs (0 : ℚ)
         | cv :: _ =>
           (idx.compute_dot_product s cv.1 cv.2 (List.replicate idx.num_docs (0 : ℚ))).2)
        top_k := by
  show selectTopK (budgetLoop s (sortQuery query) oracle 0
      (idx, List.replicate idx.num_docs (0 : ℚ))).2 top_k = _
  have hb : (budgetLoop s (sortQuery query) oracle 0
      (idx, List.replicate idx.num_docs (0 : ℚ))).2 =
      (match sortQuery query with
       | [] => List.replicate idx.num_docs (0 : ℚ)
       | cv :: _ =>
         (idx.compute_dot_product s cv.1 cv.2 (List.replicate idx.num_docs (0 : ℚ))).2) := by
    cases hq : sortQuery query with
    | nil => rfl
    | cons cv rest =>
      simp only [budgetLoop]
      rw [if_neg (Nat.not_lt_zero _), if_pos rfl]
  rw [hb]

/-! ### NaN scores never panic the selection phase -/

lemma fgtb_nan_left (b : FVal) : fgtb FVal.nan b = false := by
  cases b <;> rfl

lemma allComp_of_fin (l : List FVal) (h : ∀ v ∈ l, v ≠ FVal.nan) : allComp l = true := by
  simp only [allComp, List.all_eq_true]
  intro x hx y hy
  cases hxv : x with
  | nan => exact absurd hxv (h x hx)
  | fin a =>
    cases hyv : y with
    | nan => exact absurd hyv (h y hy)
    | fin b => simp [fcmp]

lemma minExtract_fst_mem (e : SearchResultF) (rest : List SearchResultF) :
    (minExtract e rest).1 ∈ e :: rest := by
  induction rest generalizing e with
  | nil => simp [minExtract]
  | cons x xs ih =>
    unfold minExtract
    by_cases hc : fltb x.score e.score = true
    · simp only [hc, if_true]
      rcases List.mem_cons.1 (ih x) with h | h
      · simp [h]
      · simp [h]
    · simp only [hc, if_false, Bool.false_eq_true]
      rcases List.mem_cons.1 (ih e) with h | h
      · simp [h]
      · simp [h]

lemma minExtract_snd_subset (e : SearchResultF) (rest : List SearchResultF) :
    ∀ x ∈ (minExtract e rest).2, x ∈ e :: rest := by
  induction rest generalizing e with
  | nil => simp [minExtract]
  | cons y ys ih =>
    unfold minExtract
    by_cases hc : fltb y.score e.score = true
    · simp only [hc, if_true]
      intro x hx
      rcases List.mem_cons.1 hx with rfl | hx
      · simp
      · rcases List.mem_cons.1 (ih y x hx) with h | h
        · simp [h]
        · simp [h]
    · simp only [hc, if_false, Bool.false_eq_true]
      intro x hx
      rcases List.mem_cons.1 hx with rfl | hx
      · simp
      · rcases List.mem_cons.1 (ih e x hx) with h | h
        · simp [h]
        · simp [h]

lemma selStepF_some {top_k : Nat} {st : List SearchResultF × FVal}
    (hheap : ∀ e ∈ st.1, e.score ≠ FVal.nan) (hth : st.2 ≠ FVal.nan) (ds : Nat × FVal) :
    ∃ st', selStepF top_k (some st) ds = some st' ∧
      (∀ e ∈ st'.1, e.score ≠ FVal.nan) ∧ st'.2 ≠ FVal.nan := by
  obtain ⟨h, th⟩ := st
  simp only at hheap hth
  by_cases hgt : fgtb ds.2 th = true
  · have hds : ds.2 ≠ FVal.nan := by
      intro hn
      rw [hn, fgtb_nan_left] at hgt
      exact Bool.noConfusion hgt
    have hall_entries : ∀ v ∈ ((⟨ds.1, ds.2⟩ :: h).map SearchResultF.score), v ≠ FVal.nan := by
      intro v hv
      rcases List.mem_map.1 hv with ⟨e, he, rfl⟩
      rcases List.mem_cons.1 he with rfl | he
      · exact hds
      · exact hheap e he
    have hall : allComp ((⟨ds.1, ds.2⟩ :: h).map SearchResultF.score) = true :=
      allComp_of_fin _ hall_entries
    rw [List.map_cons] at hall
    by_cases hlen : top_k < h.length + 1
    · refine ⟨((minExtract ⟨ds.1, ds.2⟩ h).2, (minExtract ⟨ds.1, ds.2⟩ h).1.score),
        ?_, ?_, ?_⟩
      · simp [selStepF, hgt, hall, hlen, popMinF]
      · intro e he
        rcases List.mem_cons.1 (minExtract_snd_subset ⟨ds.1, ds.2⟩ h e he) with rfl | he'
        · exact hds
        · exact hheap e he'
      · rcases List.mem_cons.1 (minExtract_fst_mem ⟨ds.1, ds.2⟩ h) with hm | hm
        · rw [hm]
          exact hds
        · exact hheap _ hm
    · refine ⟨(⟨ds.1, ds.2⟩ :: h, th), ?_, ?_, hth⟩
      · simp [selStepF, hgt, hall, hlen]
      · intro e he
        rcases List.mem_cons.1 he with rfl | he
        · exact hds
        · exact hheap e he
  · exact ⟨(h, th), by simp [selStepF, hgt], hheap, hth⟩

lemma selFoldF_some (top_k : Nat) :
    ∀ (entries : List (Nat × FVal)) (st : List SearchResultF × FVal),
      (∀ e ∈ st.1, e.score ≠ FVal.nan) → st.2 ≠ FVal.nan →
      ∃ st', entries.foldl (selStepF top_k) (some st) = some st' ∧
        (∀ e ∈ st'.1, e.score ≠ FVal.nan) ∧ st'.2 ≠ FVal.nan := by
  intro entries
  induction entries with
  | nil => intro st hheap hth; exact ⟨st, rfl, hheap, hth⟩
  | cons ds rest ih =>
    intro st hheap hth
    obtain ⟨st1, hstep, hheap1, hth1⟩ := selStepF_some hheap hth ds
    obtain ⟨st', hfold, hheap', hth'⟩ := ih st1 hheap1 hth1
    refine ⟨st', ?_, hheap', hth'⟩
    rw [List.foldl_cons, hstep, hfold]

/-- C10: the top-k selection phase never panics, whatever the scores —
NaN included.  A NaN score never passes the strict admission test
against the threshold (initially `f32::MIN`), so every heap entry and
the threshold stay non-NaN, and every comparison the heap makes is
`Some`: the model, which returns `none` whenever a comparison the
binary heap could perform is incomparable, always returns `some`. -/
theorem selection_never_panics (scores : List FVal) (minv : ℚ) (top_k : Nat) :
    (selectTopKF scores minv top_k).isSome = true := by
  unfold selectTopKF
  obtain ⟨st', hfold, hheap, _⟩ := selFoldF_some top_k scores.enum ([], FVal.fin minv)
    (by intro e he; simp at he) (by intro h; exact FVal.noConfusion h)
  rw [hfold]
  have hall : allComp (st'.1.map SearchResultF.score) = true := by
    apply allComp_of_fin
    intro v hv
    rcases List.mem_map.1 hv with ⟨e, he, rfl⟩
    exact hheap e he
  simp [hall]

end Linscan
